import Mathlib

/-!
Shallow embedding of `l2_compress` from `notebooks/basic_example.ipynb`
(repository yuzhaouoe/l2compress).

The source operates on `past_key_values`, a list of `(keys, values)` pairs of
4-dimensional float tensors of shape `(batch, heads, seq_len, head_dim)`.
Tensors are modelled as an explicit shape plus a total entry function with
rational entries; `keep_ratio` (a Python float) is modelled as a rational and
`prune_after` (a Python int) as an integer.  `torch.norm(keys, p=2, dim=-1)`
is modelled by the squared L2 norm of each token's key vector: the real square
root is strictly monotone on nonnegative numbers, so every comparison made by
the sort is unchanged (see `sqrt_tokenNormSq_lt_iff`).

Operations that raise a runtime error in the source are modelled by `Option`:
a `none` result of the per-layer body aborts the whole call, as an uncaught
Python exception would.
-/

/-- A 4-dimensional tensor of shape `(batch, heads, seqLen, headDim)` with
rational entries; `entry b h s d` reads the element at that index. -/
structure Tensor4 where
  batch : Nat
  heads : Nat
  seqLen : Nat
  headDim : Nat
  entry : Nat → Nat → Nat → Nat → ℚ

instance : Inhabited Tensor4 :=
  ⟨⟨0, 0, 0, 0, fun _ _ _ _ => 0⟩⟩

/-- One element of `past_key_values`: the `(keys, values)` pair of one layer. -/
structure LayerCache where
  keys : Tensor4
  values : Tensor4

instance : Inhabited LayerCache :=
  ⟨⟨default, default⟩⟩

/-- Squared L2 norm of the key vector of token `s` in slice `(b, h)`:
the square of `torch.norm(keys, p=2, dim=-1)[b, h, s]`, i.e. the sum over the
embedding axis (and only that axis) of the squared entries. -/
def tokenNormSq (t : Tensor4) (b h s : Nat) : ℚ :=
  ((List.range t.headDim).map (fun d => t.entry b h s d * t.entry b h s d)).sum

/-- The per-token scores `token_norms[b, h]` of one `(batch, head)` slice,
as a list over the sequence axis. -/
def keyNorms (t : Tensor4) (b h : Nat) : List ℚ :=
  (List.range t.seqLen).map (tokenNormSq t b h)

/-- Comparison used to model `argsort(dim=-1)` on the scores `xs`: index `i`
comes before index `j` when its score is smaller, with ties broken by index.
`torch.argsort` is called without `stable=True`, so the library leaves the
order of equal elements unspecified; this relation fixes one admissible
realization (the stable one) so that the embedding is a function. -/
def normLE (xs : List ℚ) (i j : Nat) : Prop :=
  xs.getD i 0 < xs.getD j 0 ∨ (xs.getD i 0 = xs.getD j 0 ∧ i ≤ j)

instance normLE.instDecidable (xs : List ℚ) : DecidableRel (normLE xs) := by
  intro i j
  unfold normLE
  infer_instance

instance normLE.instIsTotal (xs : List ℚ) : IsTotal Nat (normLE xs) := by
  constructor
  intro i j
  rcases lt_trichotomy (xs.getD i 0) (xs.getD j 0) with h | h | h
  · exact Or.inl (Or.inl h)
  · rcases Nat.le_total i j with hij | hij
    · exact Or.inl (Or.inr ⟨h, hij⟩)
    · exact Or.inr (Or.inr ⟨h.symm, hij⟩)
  · exact Or.inr (Or.inl h)

instance normLE.instIsTrans (xs : List ℚ) : IsTrans Nat (normLE xs) := by
  constructor
  intro i j k hij hjk
  rcases hij with hij | ⟨hij, hij2⟩
  · rcases hjk with hjk | ⟨hjk, _⟩
    · exact Or.inl (hij.trans hjk)
    · exact Or.inl (hjk ▸ hij)
  · rcases hjk with hjk | ⟨hjk, hjk2⟩
    · exact Or.inl (hij ▸ hjk)
    · exact Or.inr ⟨hij.trans hjk, hij2.trans hjk2⟩

/-- Model of `torch.argsort(dim=-1)` on one slice of scores: the token indices
`0 .. xs.length - 1` ordered by ascending score. -/
def argsortQ (xs : List ℚ) : List Nat :=
  List.insertionSort (normLE xs) (List.range xs.length)

/-- The index tensor `sorted_indices` of the source, one index list per
`(batch, head)` slice: token indices of `keys` sorted by ascending key norm. -/
def sortedIndices (keys : Tensor4) (b h : Nat) : List Nat :=
  argsortQ (keyNorms keys b h)

/-- Model of `torch.gather(src, dim=2, index=sorted_indices_expanded)`: the
output takes the shape of the index tensor (which is expanded from `keys`, so
its shape is the shape of `keys`), and position `s` of the sequence axis reads
row `idx b h s` of `src`. -/
def gatherSeq (src shape : Tensor4) (idx : Nat → Nat → List Nat) : Tensor4 :=
  { shape with entry := fun b h s d => src.entry b h ((idx b h).getD s 0) d }

/-- Number of elements of the Python slice `a[:k]` on a sequence of length `n`:
nonnegative `k` keeps `min k n` leading elements, negative `k` counts from the
end (`max 0 (n + k)` leading elements). -/
def pyLen (k : Int) (n : Nat) : Nat :=
  (if k < 0 then (n : Int) + k else min k (n : Int)).toNat

/-- Model of `x[:, :, :k, :]`: keep the first `pyLen k` entries of the
sequence axis (entries are unchanged, only the extent of the axis shrinks). -/
def sliceSeq (k : Int) (t : Tensor4) : Tensor4 :=
  { t with seqLen := pyLen k t.seqLen }

/-- Python's `math.ceil` on an exact rational: the least integer that is not
smaller than `q`, computed as `-⌊-q⌋` so that it evaluates by kernel
reduction; `mathCeil_eq_ceil` identifies it with Mathlib's `Int.ceil`.
(The source multiplies Python floats; the model uses exact rational
arithmetic, which is what the spec's formula `ceil(keep_ratio * seq_len)`
denotes.) -/
def mathCeil (q : ℚ) : Int := -Rat.floor (-q)

theorem mathCeil_eq_ceil (q : ℚ) : mathCeil q = Int.ceil q := by
  have hfloor : ∀ r : ℚ, Rat.floor r = Int.floor r := fun r => rfl
  rw [mathCeil, hfloor, ← Int.ceil_neg, neg_neg]

/-- Body of the `for layer, kv in enumerate(past_key_values)` loop of
`l2_compress`, for one layer.  `none` models the iteration raising a runtime
error.  Two operations of the source can raise:

* `token_norms.squeeze(-1)` collapses the sequence axis when `seq_len = 1`
  (the trailing axis of `token_norms` has size 1 exactly then), after which
  `sorted_indices.unsqueeze(-1).expand(-1, -1, -1, token_dim)` asks for a new
  leading dimension of size `-1` and raises; for `seq_len ≠ 1` the squeeze is
  the identity;
* `torch.gather(values, dim=2, index)` raises when the index tensor (shaped
  like `keys`) exceeds `values` in a non-gather dimension, or when an index
  value (the sorted indices cover all of `0 .. seq_len - 1`) is out of range
  along the sequence axis of `values`. -/
def processLayer (keep_ratio : ℚ) (prune_after : Int) (skip_layers : List Nat)
    (layer : Nat) (kv : LayerCache) : Option LayerCache :=
  if (kv.keys.seqLen : Int) < prune_after then some kv
  else
    let keys := kv.keys
    let values := kv.values
    let tokens_to_keep : Int := mathCeil (keep_ratio * (keys.seqLen : ℚ))
    if keys.seqLen = 1 then none
    else if values.batch < keys.batch ∨ values.heads < keys.heads ∨
        values.headDim < keys.headDim ∨ values.seqLen < keys.seqLen then none
    else
      let idx := sortedIndices keys
      let sorted_keys := gatherSeq keys keys idx
      let sorted_values := gatherSeq values keys idx
      if layer ∈ skip_layers then some kv
      else some ⟨sliceSeq tokens_to_keep sorted_keys, sliceSeq tokens_to_keep sorted_values⟩

/-- The loop of `l2_compress`, started at layer index `i`: each entry of the
copied list is replaced by the result of the loop body; a raising iteration
aborts the whole call. -/
def compressFrom (keep_ratio : ℚ) (prune_after : Int) (skip_layers : List Nat) :
    Nat → List LayerCache → Option (List LayerCache)
  | _, [] => some []
  | i, kv :: rest =>
    match processLayer keep_ratio prune_after skip_layers i kv,
        compressFrom keep_ratio prune_after skip_layers (i + 1) rest with
    | some kv2, some rest2 => some (kv2 :: rest2)
    | _, _ => none

/-- The function `l2_compress(past_key_values, keep_ratio, prune_after,
skip_layers)` of the source (defaults there: `keep_ratio = 1`,
`prune_after = 2048`, `skip_layers = []`). -/
def l2_compress (past_key_values : List LayerCache) (keep_ratio : ℚ)
    (prune_after : Int) (skip_layers : List Nat) : Option (List LayerCache) :=
  compressFrom keep_ratio prune_after skip_layers 0 past_key_values

/-! Properties of the modelled `argsort` and of the slicing arithmetic. -/

theorem normLE.le (xs : List ℚ) (i j : Nat) (h : normLE xs i j) :
    xs.getD i 0 ≤ xs.getD j 0 := by
  rcases h with h | ⟨h, _⟩
  · exact le_of_lt h
  · exact le_of_eq h

theorem normLE_refl (xs : List ℚ) (i : Nat) : normLE xs i i :=
  Or.inr ⟨Eq.refl _, le_rfl⟩

theorem argsortQ_perm (xs : List ℚ) : (argsortQ xs).Perm (List.range xs.length) :=
  List.perm_insertionSort _ _

theorem argsortQ_length (xs : List ℚ) : (argsortQ xs).length = xs.length := by
  rw [argsortQ, List.length_insertionSort, List.length_range]

theorem argsortQ_sorted (xs : List ℚ) : List.Sorted (normLE xs) (argsortQ xs) :=
  List.sorted_insertionSort _ _

theorem argsortQ_getD_lt (xs : List ℚ) (s : Nat) (hs : s < xs.length) :
    (argsortQ xs).getD s 0 < xs.length := by
  have hs2 : s < (argsortQ xs).length := by rw [argsortQ_length]; exact hs
  rw [List.getD_eq_getElem _ _ hs2]
  have hmem : (argsortQ xs)[s] ∈ argsortQ xs := List.getElem_mem hs2
  exact List.mem_range.mp ((argsortQ_perm xs).mem_iff.mp hmem)

theorem argsortQ_pairwise (xs : List ℚ) (i j : Nat) (hij : i ≤ j) (hj : j < xs.length) :
    normLE xs ((argsortQ xs).getD i 0) ((argsortQ xs).getD j 0) := by
  rcases eq_or_lt_of_le hij with h | hlt
  · rw [h]; exact normLE_refl xs _
  · have hj2 : j < (argsortQ xs).length := by rw [argsortQ_length]; exact hj
    have hi2 : i < (argsortQ xs).length := lt_trans hlt hj2
    rw [List.getD_eq_getElem _ _ hi2, List.getD_eq_getElem _ _ hj2]
    have := (argsortQ_sorted xs).rel_get_of_lt
      (a := ⟨i, hi2⟩) (b := ⟨j, hj2⟩) (by exact hlt)
    exact this

theorem keyNorms_length (t : Tensor4) (b h : Nat) :
    (keyNorms t b h).length = t.seqLen := by
  rw [keyNorms, List.length_map, List.length_range]

theorem keyNorms_getD (t : Tensor4) (b h s : Nat) (hs : s < t.seqLen) :
    (keyNorms t b h).getD s 0 = tokenNormSq t b h s := by
  rw [keyNorms]
  have hs2 : s < ((List.range t.seqLen).map (tokenNormSq t b h)).length := by simpa using hs
  rw [List.getD_eq_getElem _ _ hs2]
  simp

theorem sortedIndices_length (keys : Tensor4) (b h : Nat) :
    (sortedIndices keys b h).length = keys.seqLen := by
  rw [sortedIndices, argsortQ_length, keyNorms_length]

theorem sortedIndices_perm (keys : Tensor4) (b h : Nat) :
    (sortedIndices keys b h).Perm (List.range keys.seqLen) := by
  have := argsortQ_perm (keyNorms keys b h)
  rwa [keyNorms_length] at this

theorem sortedIndices_getD_lt (keys : Tensor4) (b h s : Nat) (hs : s < keys.seqLen) :
    (sortedIndices keys b h).getD s 0 < keys.seqLen := by
  have := argsortQ_getD_lt (keyNorms keys b h) s (by rwa [keyNorms_length])
  rwa [keyNorms_length] at this

theorem sortedIndices_mono (keys : Tensor4) (b h i j : Nat) (hij : i ≤ j)
    (hj : j < keys.seqLen) :
    tokenNormSq keys b h ((sortedIndices keys b h).getD i 0) ≤
      tokenNormSq keys b h ((sortedIndices keys b h).getD j 0) := by
  have hp := argsortQ_pairwise (keyNorms keys b h) i j hij (by rwa [keyNorms_length])
  have h1 := normLE.le _ _ _ hp
  have hlti : (argsortQ (keyNorms keys b h)).getD i 0 < keys.seqLen := by
    have := argsortQ_getD_lt (keyNorms keys b h) i
      (by rw [keyNorms_length]; exact lt_of_le_of_lt hij hj)
    rwa [keyNorms_length] at this
  have hltj : (argsortQ (keyNorms keys b h)).getD j 0 < keys.seqLen := by
    have := argsortQ_getD_lt (keyNorms keys b h) j (by rw [keyNorms_length]; exact hj)
    rwa [keyNorms_length] at this
  rw [keyNorms_getD _ _ _ _ hlti, keyNorms_getD _ _ _ _ hltj] at h1
  exact h1

theorem pyLen_le (k : Int) (n : Nat) : pyLen k n ≤ n := by
  rw [pyLen]; split <;> omega

theorem pyLen_of_nonneg (k : Int) (n : Nat) (hk : 0 ≤ k) :
    (pyLen k n : Int) = min k (n : Int) := by
  rw [pyLen, if_neg (by omega)]; omega

theorem pyLen_of_le (k : Int) (n : Nat) (hk : (n : Int) ≤ k) : pyLen k n = n := by
  rw [pyLen, if_neg (by omega)]; omega

theorem tokenNormSq_nonneg (t : Tensor4) (b h s : Nat) : 0 ≤ tokenNormSq t b h s := by
  apply List.sum_nonneg
  intro x hx
  rcases List.mem_map.mp hx with ⟨d, _, rfl⟩
  exact mul_self_nonneg _

/-- The source sorts by `torch.norm(keys, p=2, dim=-1)`, i.e. by the square
root of `tokenNormSq`; the square root is strictly monotone on nonnegative
numbers, so the comparisons made by the sort are the comparisons of
`tokenNormSq` and the model loses nothing by sorting on the squares. -/
theorem sqrt_tokenNormSq_lt_iff (t : Tensor4) (b h s1 s2 : Nat) :
    Real.sqrt (tokenNormSq t b h s1) < Real.sqrt (tokenNormSq t b h s2) ↔
      tokenNormSq t b h s1 < tokenNormSq t b h s2 := by
  rw [Real.sqrt_lt_sqrt_iff (by exact_mod_cast tokenNormSq_nonneg t b h s1)]
  exact_mod_cast Iff.rfl

/-! Bounds for `tokens_to_keep = ceil(keep_ratio * seq_len)`. -/

theorem mathCeil_nonneg (r : ℚ) (n : Nat) (hr : 0 ≤ r) :
    0 ≤ mathCeil (r * (n : ℚ)) := by
  rw [mathCeil_eq_ceil]
  exact Int.ceil_nonneg (mul_nonneg hr (by positivity))

theorem mathCeil_le_of_le_one (r : ℚ) (n : Nat) (hr : r ≤ 1) :
    mathCeil (r * (n : ℚ)) ≤ (n : Int) := by
  rw [mathCeil_eq_ceil]
  have h1 : r * (n : ℚ) ≤ (n : ℚ) := by
    calc r * (n : ℚ) ≤ 1 * (n : ℚ) := mul_le_mul_of_nonneg_right hr (by positivity)
    _ = (n : ℚ) := one_mul _
  calc Int.ceil (r * (n : ℚ)) ≤ Int.ceil ((n : ℚ)) := Int.ceil_le_ceil h1
  _ = (n : Int) := Int.ceil_natCast n

theorem le_mathCeil_of_one_le (r : ℚ) (n : Nat) (hr : 1 ≤ r) :
    (n : Int) ≤ mathCeil (r * (n : ℚ)) := by
  rw [mathCeil_eq_ceil]
  have h1 : (n : ℚ) ≤ r * (n : ℚ) := by
    calc (n : ℚ) = 1 * (n : ℚ) := (one_mul _).symm
    _ ≤ r * (n : ℚ) := mul_le_mul_of_nonneg_right hr (by positivity)
  exact_mod_cast h1.trans (Int.le_ceil _)

theorem lt_mathCeil_of_one_lt (r : ℚ) (n : Nat) (hr : 1 < r) (hn : 1 ≤ n) :
    (n : Int) < mathCeil (r * (n : ℚ)) := by
  rw [mathCeil_eq_ceil]
  apply Int.lt_ceil.mpr
  have hn2 : (0 : ℚ) < (n : ℚ) := by exact_mod_cast hn
  calc ((n : Int) : ℚ) = 1 * (n : ℚ) := by push_cast; ring
  _ < r * (n : ℚ) := by apply mul_lt_mul_of_pos_right hr hn2

/-! Unfolding the loop: a successful call processes every layer in place. -/

theorem compressFrom_spec (r : ℚ) (pa : Int) (sk : List Nat) (l : List LayerCache) :
    ∀ (i : Nat) (out : List LayerCache), compressFrom r pa sk i l = some out →
      out.length = l.length ∧
      ∀ j, j < l.length →
        processLayer r pa sk (i + j) (l.getD j default) = some (out.getD j default) := by
  induction l with
  | nil =>
    intro i out hsome
    simp only [compressFrom, Option.some_inj] at hsome
    subst hsome
    exact ⟨rfl, fun j hj => absurd hj (by simp)⟩
  | cons kv rest ih =>
    intro i out hsome
    simp only [compressFrom] at hsome
    cases hp : processLayer r pa sk i kv with
    | none => rw [hp] at hsome; simp at hsome
    | some kv2 =>
      cases hr : compressFrom r pa sk (i + 1) rest with
      | none => rw [hp, hr] at hsome; simp at hsome
      | some rest2 =>
        rw [hp, hr] at hsome
        simp only [Option.some_inj] at hsome
        subst hsome
        obtain ⟨hlen, hpt⟩ := ih (i + 1) rest2 hr
        refine ⟨by simp [hlen], ?_⟩
        intro j hj
        cases j with
        | zero => simpa using hp
        | succ j2 =>
          have hj2 : j2 < rest.length := by simpa using hj
          have := hpt j2 hj2
          have harith : i + 1 + j2 = i + (j2 + 1) := by omega
          rw [harith] at this
          simpa using this

theorem l2_compress_length (pkv : List LayerCache) (r : ℚ) (pa : Int) (sk : List Nat)
    (out : List LayerCache) (hsome : l2_compress pkv r pa sk = some out) :
    out.length = pkv.length :=
  (compressFrom_spec r pa sk pkv 0 out hsome).1

theorem l2_compress_getD (pkv : List LayerCache) (r : ℚ) (pa : Int) (sk : List Nat)
    (out : List LayerCache) (hsome : l2_compress pkv r pa sk = some out)
    (l : Nat) (hl : l < pkv.length) :
    processLayer r pa sk l (pkv.getD l default) = some (out.getD l default) := by
  have := (compressFrom_spec r pa sk pkv 0 out hsome).2 l hl
  simpa using this

/-! Case analysis of the loop body. -/

theorem processLayer_passthrough (r : ℚ) (pa : Int) (sk : List Nat) (layer : Nat)
    (kv kv2 : LayerCache) (hsome : processLayer r pa sk layer kv = some kv2)
    (hcond : layer ∈ sk ∨ (kv.keys.seqLen : Int) < pa) :
    kv2 = kv := by
  simp only [processLayer] at hsome
  by_cases hpa : (kv.keys.seqLen : Int) < pa
  · rw [if_pos hpa] at hsome
    exact (Option.some_inj.mp hsome).symm
  · rw [if_neg hpa] at hsome
    have hsk : layer ∈ sk := hcond.resolve_right hpa
    by_cases h1 : kv.keys.seqLen = 1
    · rw [if_pos h1] at hsome; simp at hsome
    · rw [if_neg h1] at hsome
      by_cases h2 : kv.values.batch < kv.keys.batch ∨ kv.values.heads < kv.keys.heads ∨
          kv.values.headDim < kv.keys.headDim ∨ kv.values.seqLen < kv.keys.seqLen
      · rw [if_pos h2] at hsome; simp at hsome
      · rw [if_neg h2, if_pos hsk] at hsome
        exact (Option.some_inj.mp hsome).symm

theorem processLayer_compact (r : ℚ) (pa : Int) (sk : List Nat) (layer : Nat)
    (kv kv2 : LayerCache) (hsome : processLayer r pa sk layer kv = some kv2)
    (hsk : layer ∉ sk) (hpa : pa ≤ (kv.keys.seqLen : Int)) :
    kv.keys.seqLen ≠ 1 ∧
    ¬(kv.values.batch < kv.keys.batch ∨ kv.values.heads < kv.keys.heads ∨
        kv.values.headDim < kv.keys.headDim ∨ kv.values.seqLen < kv.keys.seqLen) ∧
    kv2 = ⟨sliceSeq (mathCeil (r * (kv.keys.seqLen : ℚ)))
             (gatherSeq kv.keys kv.keys (sortedIndices kv.keys)),
           sliceSeq (mathCeil (r * (kv.keys.seqLen : ℚ)))
             (gatherSeq kv.values kv.keys (sortedIndices kv.keys))⟩ := by
  simp only [processLayer] at hsome
  rw [if_neg (not_lt.mpr hpa)] at hsome
  by_cases h1 : kv.keys.seqLen = 1
  · rw [if_pos h1] at hsome; simp at hsome
  · rw [if_neg h1] at hsome
    by_cases h2 : kv.values.batch < kv.keys.batch ∨ kv.values.heads < kv.keys.heads ∨
        kv.values.headDim < kv.keys.headDim ∨ kv.values.seqLen < kv.keys.seqLen
    · rw [if_pos h2] at hsome; simp at hsome
    · rw [if_neg h2, if_neg hsk] at hsome
      exact ⟨h1, h2, (Option.some_inj.mp hsome).symm⟩

/-- Shape conditions under which no torch operation used by the loop body can
raise, whatever the configuration: the layer is not hit by the `squeeze(-1)`
collapse (`seqLen ≠ 1`) and `values` is at least as large as `keys` in every
dimension (so the gather of `values` by a keys-shaped index is in range). -/
def ShapeOK (kv : LayerCache) : Prop :=
  kv.keys.seqLen ≠ 1 ∧ kv.keys.batch ≤ kv.values.batch ∧
    kv.keys.heads ≤ kv.values.heads ∧ kv.keys.headDim ≤ kv.values.headDim ∧
    kv.keys.seqLen ≤ kv.values.seqLen

instance (kv : LayerCache) : Decidable (ShapeOK kv) := by
  unfold ShapeOK
  infer_instance

theorem processLayer_isSome (r : ℚ) (pa : Int) (sk : List Nat) (layer : Nat)
    (kv : LayerCache) (hok : ShapeOK kv) :
    (processLayer r pa sk layer kv).isSome = true := by
  obtain ⟨h1, hb, hh, hd, hs⟩ := hok
  simp only [processLayer]
  by_cases hpa : (kv.keys.seqLen : Int) < pa
  · rw [if_pos hpa]; rfl
  · rw [if_neg hpa, if_neg h1, if_neg (by omega)]
    by_cases hsk : layer ∈ sk
    · rw [if_pos hsk]; rfl
    · rw [if_neg hsk]; rfl

theorem compressFrom_isSome (r : ℚ) (pa : Int) (sk : List Nat) (l : List LayerCache)
    (hok : ∀ kv ∈ l, ShapeOK kv) :
    ∀ i, (compressFrom r pa sk i l).isSome = true := by
  induction l with
  | nil => intro i; simp [compressFrom]
  | cons kv rest ih =>
    intro i
    have hp := processLayer_isSome r pa sk i kv (hok kv (by simp))
    have hr := ih (fun x hx => hok x (by simp [hx])) (i + 1)
    simp only [compressFrom]
    cases hps : processLayer r pa sk i kv with
    | none => rw [hps] at hp; simp at hp
    | some kv2 =>
      cases hrs : compressFrom r pa sk (i + 1) rest with
      | none => rw [hrs] at hr; simp at hr
      | some rest2 => rfl

theorem option_eq_some_getD {α : Type} (x : Option α) (d : α) (hx : x.isSome = true) :
    x = some (x.getD d) := by
  cases x with
  | none => simp at hx
  | some a => rfl

/-- The layer at index `l` of the snapshot returned by `l2_compress` (meaningful
when the call succeeds and `l` is in range). -/
def outputLayer (pkv : List LayerCache) (r : ℚ) (pa : Int) (sk : List Nat) (l : Nat) :
    LayerCache :=
  ((l2_compress pkv r pa sk).getD []).getD l default

theorem outputLayer_eq (pkv : List LayerCache) (r : ℚ) (pa : Int) (sk : List Nat)
    (l : Nat) (hsome : (l2_compress pkv r pa sk).isSome = true) (hl : l < pkv.length) :
    processLayer r pa sk l (pkv.getD l default) = some (outputLayer pkv r pa sk l) :=
  l2_compress_getD pkv r pa sk ((l2_compress pkv r pa sk).getD [])
    (option_eq_some_getD _ _ hsome) l hl

/-- C4: a layer is passed through unchanged when its index is in `skip_layers`
or its `seq_len` is strictly below `prune_after`; otherwise (in particular when
`seq_len = prune_after`) the layer is replaced by the compacted pair built from
the norm-sorted, truncated tensors. -/
theorem l2_compress_passthrough_condition
    (pkv : List LayerCache) (r : ℚ) (pa : Int) (sk : List Nat) (l : Nat)
    (hsome : (l2_compress pkv r pa sk).isSome = true) (hl : l < pkv.length) :
    ((l ∈ sk ∨ ((pkv.getD l default).keys.seqLen : Int) < pa) →
      outputLayer pkv r pa sk l = pkv.getD l default) ∧
    (l ∉ sk → pa ≤ ((pkv.getD l default).keys.seqLen : Int) →
      outputLayer pkv r pa sk l =
        ⟨sliceSeq (mathCeil (r * ((pkv.getD l default).keys.seqLen : ℚ)))
           (gatherSeq (pkv.getD l default).keys (pkv.getD l default).keys
             (sortedIndices (pkv.getD l default).keys)),
         sliceSeq (mathCeil (r * ((pkv.getD l default).keys.seqLen : ℚ)))
           (gatherSeq (pkv.getD l default).values (pkv.getD l default).keys
             (sortedIndices (pkv.getD l default).keys))⟩) := by
  have hout := outputLayer_eq pkv r pa sk l hsome hl
  constructor
  · intro hcond
    exact processLayer_passthrough r pa sk l _ _ hout hcond
  · intro hsk hpa
    exact (processLayer_compact r pa sk l _ _ hout hsk hpa).2.2

theorem mathCeil_one_mul (n : Nat) : mathCeil (1 * (n : ℚ)) = (n : Int) := by
  rw [mathCeil_eq_ceil, one_mul, Int.ceil_natCast]

/-- C2: on a compacted layer, for every (batch, head) slice the output keeps
the `tokens_to_keep` tokens of smallest key norm, in ascending order of norm,
and every discarded token's norm is at least every kept token's norm. -/
theorem l2_compress_keeps_smallest_norms
    (pkv : List LayerCache) (r : ℚ) (pa : Int) (sk : List Nat) (l : Nat)
    (hsome : (l2_compress pkv r pa sk).isSome = true) (hl : l < pkv.length)
    (hsk : l ∉ sk) (hpa : pa ≤ ((pkv.getD l default).keys.seqLen : Int))
    (hr0 : 0 < r) (hr1 : r ≤ 1) :
    (outputLayer pkv r pa sk l).keys.seqLen =
      (Int.ceil (r * ((pkv.getD l default).keys.seqLen : ℚ))).toNat ∧
    ∀ b h,
      (∀ i j, i ≤ j → j < (outputLayer pkv r pa sk l).keys.seqLen →
        tokenNormSq (outputLayer pkv r pa sk l).keys b h i ≤
          tokenNormSq (outputLayer pkv r pa sk l).keys b h j) ∧
      ∃ p : List Nat, p.Perm (List.range (pkv.getD l default).keys.seqLen) ∧
        (∀ s d, (outputLayer pkv r pa sk l).keys.entry b h s d =
          (pkv.getD l default).keys.entry b h (p.getD s 0) d) ∧
        (∀ i j, i < (outputLayer pkv r pa sk l).keys.seqLen →
          (outputLayer pkv r pa sk l).keys.seqLen ≤ j →
          j < (pkv.getD l default).keys.seqLen →
          tokenNormSq (pkv.getD l default).keys b h (p.getD i 0) ≤
            tokenNormSq (pkv.getD l default).keys b h (p.getD j 0)) := by
  have hout := outputLayer_eq pkv r pa sk l hsome hl
  obtain ⟨h1, h2, heq⟩ := processLayer_compact r pa sk l _ _ hout hsk hpa
  rw [heq]
  have hk0 : 0 ≤ mathCeil (r * ((pkv.getD l default).keys.seqLen : ℚ)) :=
    mathCeil_nonneg r _ hr0.le
  have hkn : mathCeil (r * ((pkv.getD l default).keys.seqLen : ℚ)) ≤
      ((pkv.getD l default).keys.seqLen : Int) := mathCeil_le_of_le_one r _ hr1
  have hpy := pyLen_of_nonneg (mathCeil (r * ((pkv.getD l default).keys.seqLen : ℚ)))
    (pkv.getD l default).keys.seqLen hk0
  have hple := pyLen_le (mathCeil (r * ((pkv.getD l default).keys.seqLen : ℚ)))
    (pkv.getD l default).keys.seqLen
  constructor
  · show pyLen (mathCeil (r * ((pkv.getD l default).keys.seqLen : ℚ)))
      (pkv.getD l default).keys.seqLen = _
    rw [← mathCeil_eq_ceil]
    omega
  · intro b h
    constructor
    · intro i j hij hj
      show tokenNormSq (pkv.getD l default).keys b h
          ((sortedIndices (pkv.getD l default).keys b h).getD i 0) ≤
        tokenNormSq (pkv.getD l default).keys b h
          ((sortedIndices (pkv.getD l default).keys b h).getD j 0)
      exact sortedIndices_mono _ b h i j hij (lt_of_lt_of_le hj hple)
    · refine ⟨sortedIndices (pkv.getD l default).keys b h,
        sortedIndices_perm _ b h, fun s d => rfl, ?_⟩
      intro i j hi hj hjn
      exact sortedIndices_mono _ b h i j (by omega) hjn

/-- C5: on a compacted layer with a positive ratio, the number of retained
tokens is `ceil(keep_ratio * seq_len)` clamped to at least 0 and at most
`seq_len`, on the values tensor as much as on the keys tensor. -/
theorem l2_compress_retained_count
    (pkv : List LayerCache) (r : ℚ) (pa : Int) (sk : List Nat) (l : Nat)
    (hsome : (l2_compress pkv r pa sk).isSome = true) (hl : l < pkv.length)
    (hsk : l ∉ sk) (hpa : pa ≤ ((pkv.getD l default).keys.seqLen : Int))
    (hr0 : 0 < r) :
    ((outputLayer pkv r pa sk l).keys.seqLen : Int) =
      max 0 (min (Int.ceil (r * ((pkv.getD l default).keys.seqLen : ℚ)))
        ((pkv.getD l default).keys.seqLen : Int)) ∧
    (outputLayer pkv r pa sk l).values.seqLen = (outputLayer pkv r pa sk l).keys.seqLen := by
  have hout := outputLayer_eq pkv r pa sk l hsome hl
  obtain ⟨h1, h2, heq⟩ := processLayer_compact r pa sk l _ _ hout hsk hpa
  rw [heq]
  have hk0 : 0 ≤ mathCeil (r * ((pkv.getD l default).keys.seqLen : ℚ)) :=
    mathCeil_nonneg r _ hr0.le
  have hpy := pyLen_of_nonneg (mathCeil (r * ((pkv.getD l default).keys.seqLen : ℚ)))
    (pkv.getD l default).keys.seqLen hk0
  constructor
  · show ((pyLen (mathCeil (r * ((pkv.getD l default).keys.seqLen : ℚ)))
      (pkv.getD l default).keys.seqLen : Nat) : Int) = _
    rw [← mathCeil_eq_ceil]
    omega
  · rfl

/-- C7: on a compacted layer, keys and values are reordered by the same
permutation: every retained position reads its key row and its value row from
one and the same original token position. -/
theorem l2_compress_pairing
    (pkv : List LayerCache) (r : ℚ) (pa : Int) (sk : List Nat) (l : Nat)
    (hsome : (l2_compress pkv r pa sk).isSome = true) (hl : l < pkv.length)
    (hsk : l ∉ sk) (hpa : pa ≤ ((pkv.getD l default).keys.seqLen : Int)) :
    ∀ b h s, s < (outputLayer pkv r pa sk l).keys.seqLen →
      ∃ j, j < (pkv.getD l default).keys.seqLen ∧
        (∀ d, (outputLayer pkv r pa sk l).keys.entry b h s d =
          (pkv.getD l default).keys.entry b h j d) ∧
        (∀ d, (outputLayer pkv r pa sk l).values.entry b h s d =
          (pkv.getD l default).values.entry b h j d) := by
  have hout := outputLayer_eq pkv r pa sk l hsome hl
  obtain ⟨h1, h2, heq⟩ := processLayer_compact r pa sk l _ _ hout hsk hpa
  rw [heq]
  intro b h s hs
  have hple := pyLen_le (mathCeil (r * ((pkv.getD l default).keys.seqLen : ℚ)))
    (pkv.getD l default).keys.seqLen
  have hsn : s < (pkv.getD l default).keys.seqLen := lt_of_lt_of_le hs hple
  exact ⟨(sortedIndices (pkv.getD l default).keys b h).getD s 0,
    sortedIndices_getD_lt _ b h s hsn, fun d => rfl, fun d => rfl⟩

/-- C8: a successful call returns one output layer per input layer, in order;
on each layer (whose keys and values agree on batch, heads, seq_len, head_dim,
with a ratio in (0, 1]) batch, heads and head_dim are preserved exactly, the
output values tensor keeps the seq_len of the output keys tensor, and the
output seq_len is the input seq_len (pass-through) or `tokens_to_keep`. -/
theorem l2_compress_shape
    (pkv : List LayerCache) (r : ℚ) (pa : Int) (sk : List Nat) (l : Nat)
    (hsome : (l2_compress pkv r pa sk).isSome = true) (hl : l < pkv.length)
    (hwf : (pkv.getD l default).values.batch = (pkv.getD l default).keys.batch ∧
      (pkv.getD l default).values.heads = (pkv.getD l default).keys.heads ∧
      (pkv.getD l default).values.seqLen = (pkv.getD l default).keys.seqLen ∧
      (pkv.getD l default).values.headDim = (pkv.getD l default).keys.headDim)
    (hr0 : 0 < r) (hr1 : r ≤ 1) :
    ((l2_compress pkv r pa sk).getD []).length = pkv.length ∧
    (outputLayer pkv r pa sk l).keys.batch = (pkv.getD l default).keys.batch ∧
    (outputLayer pkv r pa sk l).keys.heads = (pkv.getD l default).keys.heads ∧
    (outputLayer pkv r pa sk l).keys.headDim = (pkv.getD l default).keys.headDim ∧
    (outputLayer pkv r pa sk l).values.batch = (pkv.getD l default).values.batch ∧
    (outputLayer pkv r pa sk l).values.heads = (pkv.getD l default).values.heads ∧
    (outputLayer pkv r pa sk l).values.headDim = (pkv.getD l default).values.headDim ∧
    (outputLayer pkv r pa sk l).values.seqLen = (outputLayer pkv r pa sk l).keys.seqLen ∧
    ((outputLayer pkv r pa sk l).keys.seqLen = (pkv.getD l default).keys.seqLen ∨
      (outputLayer pkv r pa sk l).keys.seqLen =
        (Int.ceil (r * ((pkv.getD l default).keys.seqLen : ℚ))).toNat) := by
  have hout := outputLayer_eq pkv r pa sk l hsome hl
  obtain ⟨hwb, hwh, hws, hwd⟩ := hwf
  refine ⟨l2_compress_length pkv r pa sk _ (option_eq_some_getD _ _ hsome), ?_⟩
  by_cases hcond : l ∈ sk ∨ ((pkv.getD l default).keys.seqLen : Int) < pa
  · have hpass := processLayer_passthrough r pa sk l _ _ hout hcond
    rw [hpass]
    exact ⟨rfl, rfl, rfl, rfl, rfl, rfl, hws, Or.inl rfl⟩
  · push_neg at hcond
    obtain ⟨hsk, hpa⟩ := hcond
    obtain ⟨h1, h2, heq⟩ := processLayer_compact r pa sk l _ _ hout hsk hpa
    rw [heq]
    refine ⟨rfl, rfl, rfl, hwb.symm, hwh.symm, hwd.symm, rfl, Or.inr ?_⟩
    have hk0 : 0 ≤ mathCeil (r * ((pkv.getD l default).keys.seqLen : ℚ)) :=
      mathCeil_nonneg r _ hr0.le
    have hkn : mathCeil (r * ((pkv.getD l default).keys.seqLen : ℚ)) ≤
        ((pkv.getD l default).keys.seqLen : Int) := mathCeil_le_of_le_one r _ hr1
    have hpy := pyLen_of_nonneg (mathCeil (r * ((pkv.getD l default).keys.seqLen : ℚ)))
      (pkv.getD l default).keys.seqLen hk0
    show pyLen (mathCeil (r * ((pkv.getD l default).keys.seqLen : ℚ)))
      (pkv.getD l default).keys.seqLen = _
    rw [← mathCeil_eq_ceil]
    omega

/-- C1 (amended): with `keep_ratio = 1` a successful call keeps every layer's
seq_len and every token row, but a compacted (non-skipped, long-enough) layer
is reordered by ascending key norm rather than returned in input order. -/
theorem l2_compress_ratio_one
    (pkv : List LayerCache) (pa : Int) (sk : List Nat) (l : Nat)
    (hsome : (l2_compress pkv 1 pa sk).isSome = true) (hl : l < pkv.length) :
    ((l2_compress pkv 1 pa sk).getD []).length = pkv.length ∧
    ((l ∈ sk ∨ ((pkv.getD l default).keys.seqLen : Int) < pa) →
      outputLayer pkv 1 pa sk l = pkv.getD l default) ∧
    (l ∉ sk → pa ≤ ((pkv.getD l default).keys.seqLen : Int) →
      (outputLayer pkv 1 pa sk l).keys.seqLen = (pkv.getD l default).keys.seqLen ∧
      (outputLayer pkv 1 pa sk l).values.seqLen = (pkv.getD l default).keys.seqLen ∧
      ∀ b h, ∃ p : List Nat, p.Perm (List.range (pkv.getD l default).keys.seqLen) ∧
        (∀ s d, (outputLayer pkv 1 pa sk l).keys.entry b h s d =
          (pkv.getD l default).keys.entry b h (p.getD s 0) d) ∧
        (∀ s d, (outputLayer pkv 1 pa sk l).values.entry b h s d =
          (pkv.getD l default).values.entry b h (p.getD s 0) d)) := by
  have hout := outputLayer_eq pkv 1 pa sk l hsome hl
  refine ⟨l2_compress_length pkv 1 pa sk _ (option_eq_some_getD _ _ hsome), ?_, ?_⟩
  · intro hcond
    exact processLayer_passthrough 1 pa sk l _ _ hout hcond
  · intro hsk hpa
    obtain ⟨h1, h2, heq⟩ := processLayer_compact 1 pa sk l _ _ hout hsk hpa
    rw [heq]
    have hlen : pyLen (mathCeil (1 * ((pkv.getD l default).keys.seqLen : ℚ)))
        (pkv.getD l default).keys.seqLen = (pkv.getD l default).keys.seqLen := by
      rw [mathCeil_one_mul]
      exact pyLen_of_le _ _ le_rfl
    exact ⟨hlen, hlen, fun b h =>
      ⟨sortedIndices (pkv.getD l default).keys b h, sortedIndices_perm _ b h,
        fun s d => rfl, fun s d => rfl⟩⟩

/-- C10: with `keep_ratio > 1` (an out-of-range configuration) a compacted
layer is not truncated: `tokens_to_keep` exceeds `seq_len`, the slice clamps
to `seq_len`, and the output is the input rows permuted by ascending key
norm. -/
theorem l2_compress_ratio_gt_one
    (pkv : List LayerCache) (r : ℚ) (pa : Int) (sk : List Nat) (l : Nat)
    (hsome : (l2_compress pkv r pa sk).isSome = true) (hl : l < pkv.length)
    (hsk : l ∉ sk) (hpa : pa ≤ ((pkv.getD l default).keys.seqLen : Int))
    (hr : 1 < r) :
    (outputLayer pkv r pa sk l).keys.seqLen = (pkv.getD l default).keys.seqLen ∧
    (outputLayer pkv r pa sk l).values.seqLen = (pkv.getD l default).keys.seqLen ∧
    (1 ≤ (pkv.getD l default).keys.seqLen →
      ((pkv.getD l default).keys.seqLen : Int) <
        Int.ceil (r * ((pkv.getD l default).keys.seqLen : ℚ))) ∧
    ∀ b h, ∃ p : List Nat, p.Perm (List.range (pkv.getD l default).keys.seqLen) ∧
      (∀ s d, (outputLayer pkv r pa sk l).keys.entry b h s d =
        (pkv.getD l default).keys.entry b h (p.getD s 0) d) ∧
      (∀ s d, (outputLayer pkv r pa sk l).values.entry b h s d =
        (pkv.getD l default).values.entry b h (p.getD s 0) d) ∧
      (∀ i j, i ≤ j → j < (pkv.getD l default).keys.seqLen →
        tokenNormSq (pkv.getD l default).keys b h (p.getD i 0) ≤
          tokenNormSq (pkv.getD l default).keys b h (p.getD j 0)) := by
  have hout := outputLayer_eq pkv r pa sk l hsome hl
  obtain ⟨h1, h2, heq⟩ := processLayer_compact r pa sk l _ _ hout hsk hpa
  rw [heq]
  have hlen : pyLen (mathCeil (r * ((pkv.getD l default).keys.seqLen : ℚ)))
      (pkv.getD l default).keys.seqLen = (pkv.getD l default).keys.seqLen :=
    pyLen_of_le _ _ (le_mathCeil_of_one_le r _ hr.le)
  refine ⟨hlen, hlen, ?_, ?_⟩
  · intro hn
    rw [← mathCeil_eq_ceil]
    exact lt_mathCeil_of_one_lt r _ hr hn
  · intro b h
    exact ⟨sortedIndices (pkv.getD l default).keys b h, sortedIndices_perm _ b h,
      fun s d => rfl, fun s d => rfl,
      fun i j hij hj => sortedIndices_mono _ b h i j hij hj⟩

/-- C3 (amended): no configuration validation is performed: for any
`keep_ratio` (also outside (0, 1]) and any `prune_after` (also negative) the
call returns a snapshot with one layer per input layer, provided only that no
layer trips the runtime shape failures of the torch operations themselves. -/
theorem l2_compress_no_validation
    (pkv : List LayerCache) (r : ℚ) (pa : Int) (sk : List Nat)
    (hok : ∀ kv ∈ pkv, ShapeOK kv) :
    (l2_compress pkv r pa sk).isSome = true ∧
    ((l2_compress pkv r pa sk).getD []).length = pkv.length := by
  have h1 := compressFrom_isSome r pa sk pkv hok 0
  exact ⟨h1, l2_compress_length pkv r pa sk _ (option_eq_some_getD _ _ h1)⟩

/-! Concrete snapshots used by the counterexamples and witnesses below.
All of them have integer-valued entries, hence are exactly representable as
float tensors of the source. -/

def exKeys : Tensor4 :=
  ⟨1, 1, 2, 1, fun _ _ s _ => if s = 0 then 2 else 1⟩

def exVals : Tensor4 :=
  ⟨1, 1, 2, 1, fun _ _ s _ => if s = 0 then 10 else 20⟩

def exLayer : LayerCache := ⟨exKeys, exVals⟩

def wKeys : Tensor4 :=
  ⟨1, 1, 3, 1, fun _ _ s _ => if s = 0 then 3 else if s = 1 then 1 else 2⟩

def wVals : Tensor4 :=
  ⟨1, 1, 3, 1, fun _ _ s _ => (s : ℚ) + 10⟩

def wLayer : LayerCache := ⟨wKeys, wVals⟩

def wSnapshot : List LayerCache := [wLayer, wLayer]

def w13Keys : Tensor4 := ⟨1, 1, 13, 1, fun _ _ s _ => (s : ℚ)⟩

def w13Snapshot : List LayerCache := [⟨w13Keys, w13Keys⟩]

/-- C1 counterexample: with `keep_ratio = 1` the call succeeds, but the
compacted layer is reordered by ascending key norm: the first token's key
entry changes from 2 to 1, so contents-at-position and token ordering are not
preserved and the call is not an identity transform. -/
theorem l2_compress_ratio_one_reorders :
    (l2_compress [exLayer] 1 0 []).isSome = true ∧
    (outputLayer [exLayer] 1 0 [] 0).keys.entry 0 0 0 0 ≠ exLayer.keys.entry 0 0 0 0 ∧
    (outputLayer [exLayer] 1 0 [] 0).values.entry 0 0 0 0 ≠ exLayer.values.entry 0 0 0 0 := by
  with_unfolding_all decide

/-- C3 counterexample: `keep_ratio = 2` lies outside (0, 1] and
`prune_after = -1` is negative, yet the call does not fail: it returns a
one-layer snapshot. -/
theorem l2_compress_invalid_config_returns :
    (l2_compress [exLayer] 2 (-1) []).isSome = true ∧
    ((l2_compress [exLayer] 2 (-1) []).getD []).length = 1 := by
  with_unfolding_all decide

theorem l2_compress_ratio_one_witness :
    ((l2_compress wSnapshot 1 3 [0]).getD []).length = wSnapshot.length ∧
    ((1 ∈ [0] ∨ ((wSnapshot.getD 1 default).keys.seqLen : Int) < 3) →
      outputLayer wSnapshot 1 3 [0] 1 = wSnapshot.getD 1 default) ∧
    (1 ∉ [0] → (3 : Int) ≤ ((wSnapshot.getD 1 default).keys.seqLen : Int) →
      (outputLayer wSnapshot 1 3 [0] 1).keys.seqLen = (wSnapshot.getD 1 default).keys.seqLen ∧
      (outputLayer wSnapshot 1 3 [0] 1).values.seqLen = (wSnapshot.getD 1 default).keys.seqLen ∧
      ∀ b h, ∃ p : List Nat, p.Perm (List.range (wSnapshot.getD 1 default).keys.seqLen) ∧
        (∀ s d, (outputLayer wSnapshot 1 3 [0] 1).keys.entry b h s d =
          (wSnapshot.getD 1 default).keys.entry b h (p.getD s 0) d) ∧
        (∀ s d, (outputLayer wSnapshot 1 3 [0] 1).values.entry b h s d =
          (wSnapshot.getD 1 default).values.entry b h (p.getD s 0) d)) :=
  l2_compress_ratio_one wSnapshot 3 [0] 1 (by with_unfolding_all decide) (by decide)

theorem l2_compress_keeps_smallest_norms_witness :
    (outputLayer wSnapshot (2/3) 0 [] 0).keys.seqLen =
      (Int.ceil ((2/3 : ℚ) * ((wSnapshot.getD 0 default).keys.seqLen : ℚ))).toNat ∧
    ∀ b h,
      (∀ i j, i ≤ j → j < (outputLayer wSnapshot (2/3) 0 [] 0).keys.seqLen →
        tokenNormSq (outputLayer wSnapshot (2/3) 0 [] 0).keys b h i ≤
          tokenNormSq (outputLayer wSnapshot (2/3) 0 [] 0).keys b h j) ∧
      ∃ p : List Nat, p.Perm (List.range (wSnapshot.getD 0 default).keys.seqLen) ∧
        (∀ s d, (outputLayer wSnapshot (2/3) 0 [] 0).keys.entry b h s d =
          (wSnapshot.getD 0 default).keys.entry b h (p.getD s 0) d) ∧
        (∀ i j, i < (outputLayer wSnapshot (2/3) 0 [] 0).keys.seqLen →
          (outputLayer wSnapshot (2/3) 0 [] 0).keys.seqLen ≤ j →
          j < (wSnapshot.getD 0 default).keys.seqLen →
          tokenNormSq (wSnapshot.getD 0 default).keys b h (p.getD i 0) ≤
            tokenNormSq (wSnapshot.getD 0 default).keys b h (p.getD j 0)) :=
  l2_compress_keeps_smallest_norms wSnapshot (2/3) 0 [] 0 (by with_unfolding_all decide)
    (by decide) (by decide) (by decide) (by with_unfolding_all decide)
    (by with_unfolding_all decide)

theorem l2_compress_passthrough_condition_witness :
    ((1 ∈ [0] ∨ ((wSnapshot.getD 1 default).keys.seqLen : Int) < 3) →
      outputLayer wSnapshot (1/3) 3 [0] 1 = wSnapshot.getD 1 default) ∧
    (1 ∉ [0] → (3 : Int) ≤ ((wSnapshot.getD 1 default).keys.seqLen : Int) →
      outputLayer wSnapshot (1/3) 3 [0] 1 =
        ⟨sliceSeq (mathCeil ((1/3 : ℚ) * ((wSnapshot.getD 1 default).keys.seqLen : ℚ)))
           (gatherSeq (wSnapshot.getD 1 default).keys (wSnapshot.getD 1 default).keys
             (sortedIndices (wSnapshot.getD 1 default).keys)),
         sliceSeq (mathCeil ((1/3 : ℚ) * ((wSnapshot.getD 1 default).keys.seqLen : ℚ)))
           (gatherSeq (wSnapshot.getD 1 default).values (wSnapshot.getD 1 default).keys
             (sortedIndices (wSnapshot.getD 1 default).keys))⟩) :=
  l2_compress_passthrough_condition wSnapshot (1/3) 3 [0] 1 (by with_unfolding_all decide)
    (by decide)

theorem l2_compress_retained_count_witness :
    (((outputLayer w13Snapshot (3/5) 5 [] 0).keys.seqLen : Int) =
      max 0 (min (Int.ceil ((3/5 : ℚ) * ((w13Snapshot.getD 0 default).keys.seqLen : ℚ)))
        ((w13Snapshot.getD 0 default).keys.seqLen : Int)) ∧
      (outputLayer w13Snapshot (3/5) 5 [] 0).values.seqLen =
        (outputLayer w13Snapshot (3/5) 5 [] 0).keys.seqLen) ∧
    (outputLayer w13Snapshot (3/5) 5 [] 0).keys.seqLen = 8 := by
  refine ⟨l2_compress_retained_count w13Snapshot (3/5) 5 [] 0 (by with_unfolding_all decide)
    (by decide) (by decide) (by decide) (by with_unfolding_all decide), ?_⟩
  with_unfolding_all decide

theorem l2_compress_pairing_witness :
    ∃ j, j < (wSnapshot.getD 1 default).keys.seqLen ∧
      (∀ d, (outputLayer wSnapshot (2/3) 3 [] 1).keys.entry 0 0 0 d =
        (wSnapshot.getD 1 default).keys.entry 0 0 j d) ∧
      (∀ d, (outputLayer wSnapshot (2/3) 3 [] 1).values.entry 0 0 0 d =
        (wSnapshot.getD 1 default).values.entry 0 0 j d) :=
  l2_compress_pairing wSnapshot (2/3) 3 [] 1 (by with_unfolding_all decide)
    (by decide) (by decide) (by decide) 0 0 0 (by with_unfolding_all decide)

theorem l2_compress_shape_witness :
    ((l2_compress wSnapshot (2/3) 3 [] ).getD []).length = wSnapshot.length ∧
    (outputLayer wSnapshot (2/3) 3 [] 0).keys.batch = (wSnapshot.getD 0 default).keys.batch ∧
    (outputLayer wSnapshot (2/3) 3 [] 0).keys.heads = (wSnapshot.getD 0 default).keys.heads ∧
    (outputLayer wSnapshot (2/3) 3 [] 0).keys.headDim = (wSnapshot.getD 0 default).keys.headDim ∧
    (outputLayer wSnapshot (2/3) 3 [] 0).values.batch = (wSnapshot.getD 0 default).values.batch ∧
    (outputLayer wSnapshot (2/3) 3 [] 0).values.heads = (wSnapshot.getD 0 default).values.heads ∧
    (outputLayer wSnapshot (2/3) 3 [] 0).values.headDim =
      (wSnapshot.getD 0 default).values.headDim ∧
    (outputLayer wSnapshot (2/3) 3 [] 0).values.seqLen =
      (outputLayer wSnapshot (2/3) 3 [] 0).keys.seqLen ∧
    ((outputLayer wSnapshot (2/3) 3 [] 0).keys.seqLen = (wSnapshot.getD 0 default).keys.seqLen ∨
      (outputLayer wSnapshot (2/3) 3 [] 0).keys.seqLen =
        (Int.ceil ((2/3 : ℚ) * ((wSnapshot.getD 0 default).keys.seqLen : ℚ))).toNat) :=
  l2_compress_shape wSnapshot (2/3) 3 [] 0 (by with_unfolding_all decide) (by decide)
    (by decide) (by with_unfolding_all decide) (by with_unfolding_all decide)

theorem l2_compress_ratio_gt_one_witness :
    (outputLayer wSnapshot 2 3 [] 0).keys.seqLen = (wSnapshot.getD 0 default).keys.seqLen ∧
    (outputLayer wSnapshot 2 3 [] 0).values.seqLen = (wSnapshot.getD 0 default).keys.seqLen ∧
    (1 ≤ (wSnapshot.getD 0 default).keys.seqLen →
      ((wSnapshot.getD 0 default).keys.seqLen : Int) <
        Int.ceil ((2 : ℚ) * ((wSnapshot.getD 0 default).keys.seqLen : ℚ))) ∧
    ∀ b h, ∃ p : List Nat, p.Perm (List.range (wSnapshot.getD 0 default).keys.seqLen) ∧
      (∀ s d, (outputLayer wSnapshot 2 3 [] 0).keys.entry b h s d =
        (wSnapshot.getD 0 default).keys.entry b h (p.getD s 0) d) ∧
      (∀ s d, (outputLayer wSnapshot 2 3 [] 0).values.entry b h s d =
        (wSnapshot.getD 0 default).values.entry b h (p.getD s 0) d) ∧
      (∀ i j, i ≤ j → j < (wSnapshot.getD 0 default).keys.seqLen →
        tokenNormSq (wSnapshot.getD 0 default).keys b h (p.getD i 0) ≤
          tokenNormSq (wSnapshot.getD 0 default).keys b h (p.getD j 0)) :=
  l2_compress_ratio_gt_one wSnapshot 2 3 [] 0 (by with_unfolding_all decide)
    (by decide) (by decide) (by decide) (by with_unfolding_all decide)

theorem l2_compress_no_validation_witness :
    (l2_compress [exLayer] 2 (-1) [7]).isSome = true ∧
    ((l2_compress [exLayer] 2 (-1) [7]).getD []).length = [exLayer].length :=
  l2_compress_no_validation [exLayer] 2 (-1) [7] (by with_unfolding_all decide)
